import Mathlib

/-!
Shallow embedding of the BITS packet decoder from `src/day16.rs` (Advent of
Code 2021, day 16), together with the iterator helper `streaming_windows`
from `src/library.rs` that its evaluator uses.

Modelling conventions:
* The nom `BitsInput<'a> = (&[u8], usize)` bit cursor is modelled as a
  `List Bool` of the remaining bits (MSB-first); `len input` in the source
  is `List.length` here.
* Rust `u64`/`usize` arithmetic is modelled on `Nat` with an explicit
  `% 2^64` exactly where the source can wrap (release-profile wrapping
  semantics; a debug build would panic at the same spots).
* Fallible parsers return a three-way result mirroring
  `IResult<_, _, ErrorTree<_>>`: recoverable `nom::Err::Error`,
  unrecoverable `nom::Err::Failure` (produced by `.cut()`), or success.
  Error trees are simplified to a base node carrying the remaining input
  at the failure point (as nom errors do) plus `Alt` combination; the
  message-only `.context(..)`/Stack decorations of `nom_supreme` are
  dropped since they do not affect which inputs parse.
* The mutually recursive parser (`parse_packet` ↔ `parse_operator_packet`)
  is defined with an explicit fuel parameter so that it is structurally
  recursive and kernel-computable; the wrappers instantiate the fuel with
  `input.length + 1`, which is proved sufficient. Fuel exhaustion yields a
  distinguished error kind that is shown never to occur at that fuel.
-/

namespace Day16

/-- Remaining bit stream, MSB-first (models nom's `BitsInput`). -/
abbrev Bits := List Bool

/-- Rust `2^64`, the modulus of Rust `u64`/`usize` arithmetic. -/
def U64 : Nat := 18446744073709551616

/-- Wrapping `u64` subtraction `a.wrapping_sub(b)` (for `a, b < 2^64`).
The source performs `*bit_count -= packet_len` on a `usize`; in a release
build this wraps modulo `2^64`. -/
def wsub64 (a b : Nat) : Nat := (a + U64 - b % U64) % U64

/-- Opcode of an operator packet (`enum Opcode` in the source). -/
inductive Opcode where
  | sum
  | product
  | min
  | max
  | greater
  | less
  | eq
deriving DecidableEq, Repr

mutual
/-- Rust `struct Packet { version: u64, data: PacketData }`. -/
inductive Packet where
  | mk (version : Nat) (data : PacketData)
deriving Repr

/-- Rust `enum PacketData { Literal(u64), Operator(Operator) }`. -/
inductive PacketData where
  | literal (value : Nat)
  | operator (op : Operator)
deriving Repr

/-- Rust `struct Operator { type_id: Opcode, operands: Vec<Packet> }`. -/
inductive Operator where
  | mk (type_id : Opcode) (operands : List Packet)
deriving Repr
end

/-- The `version` field of a packet. -/
def Packet.version : Packet → Nat
  | .mk v _ => v

/-- The `data` field of a packet. -/
def Packet.data : Packet → PacketData
  | .mk _ d => d

mutual
/-- Rust `Packet::version_sum`: `self.version + self.data.version_sum()`.
(`u64` addition; it cannot wrap for any tree the parser produces, since
parsed versions are < 8 and a parsed tree has fewer than `2^61` packets,
so the addition is modelled exactly.) -/
def Packet.version_sum : Packet → Nat
  | .mk v d => v + PacketData.version_sum d

/-- Rust `PacketData::version_sum`: 0 for a literal, recursive for an operator. -/
def PacketData.version_sum : PacketData → Nat
  | .literal _ => 0
  | .operator op => Operator.version_sum op

/-- Rust `Operator::version_sum`: sum of the operands' version sums. -/
def Operator.version_sum : Operator → Nat
  | .mk _ ops => versionSumList ops

/-- Rust `self.operands.iter().map(|p| p.version_sum()).sum()`. -/
def versionSumList : List Packet → Nat
  | [] => 0
  | p :: rest => Packet.version_sum p + versionSumList rest
end

/-- Rust `IterExt::streaming_windows::<2>` from `src/library.rs`, specialised to
window size 2 as `Operator::value` uses it: yields each adjacent pair of
the stream (none if the stream has fewer than two elements). -/
def streaming_windows2 {α : Type} : List α → List (α × α)
  | a :: b :: rest => (a, b) :: streaming_windows2 (b :: rest)
  | _ => []

/-- Rust `Iterator::sum` over `u64`: left fold of wrapping addition from 0. -/
def sum64 (l : List Nat) : Nat := l.foldl (fun a x => (a + x) % U64) 0

/-- Rust `Iterator::product` over `u64`: left fold of wrapping mult. from 1. -/
def prod64 (l : List Nat) : Nat := l.foldl (fun a x => (a * x) % U64) 1

/-- Rust `Iterator::min`: `none` on an empty stream. -/
def listMin : List Nat → Option Nat
  | [] => none
  | x :: xs =>
    some (match listMin xs with
      | none => x
      | some m => Nat.min x m)

/-- Rust `Iterator::max`: `none` on an empty stream. -/
def listMax : List Nat → Option Nat
  | [] => none
  | x :: xs =>
    some (match listMax xs with
      | none => x
      | some m => Nat.max x m)

mutual
/-- Rust `Packet::value`: `self.data.value()`. -/
def Packet.value : Packet → Nat
  | .mk _ d => PacketData.value d

/-- Rust `PacketData::value`. -/
def PacketData.value : PacketData → Nat
  | .literal v => v
  | .operator op => Operator.value op

/-- Rust `Operator::value`: apply the opcode to the operand values.
`min`/`max` use `unwrap_or(0)` on the empty stream; the three comparisons
test every adjacent pair via `streaming_windows` and yield 1/0. -/
def Operator.value : Operator → Nat
  | .mk code ops =>
    match code with
    | .sum => sum64 (packetValues ops)
    | .product => prod64 (packetValues ops)
    | .min => (listMin (packetValues ops)).getD 0
    | .max => (listMax (packetValues ops)).getD 0
    | .greater =>
      if (streaming_windows2 (packetValues ops)).all (fun p => decide (p.1 > p.2)) then 1 else 0
    | .less =>
      if (streaming_windows2 (packetValues ops)).all (fun p => decide (p.1 < p.2)) then 1 else 0
    | .eq =>
      if (streaming_windows2 (packetValues ops)).all (fun p => decide (p.1 = p.2)) then 1 else 0

/-- Rust `self.operands.iter().map(|op| op.value())` as a list. -/
def packetValues : List Packet → List Nat
  | [] => []
  | p :: rest => Packet.value p :: packetValues rest
end

/-! ### Bit-level parsing primitives -/

/-- Error kinds of the nom error variants the day-16 bit grammar can
produce (`ErrorKind::Eof` from `bits::complete::take`, `ErrorKind::TagBits`
from `tag_bits`/`parse_opcode`). `fuelOut` is an artifact of the fuel-based
embedding of the recursive parser; it is proved unreachable at the fuel the
wrappers use. -/
inductive ErrKind where
  | eof
  | tagBits
  | fuelOut
deriving DecidableEq, Repr

/-- Simplified `ErrorTree<BitsInput>`: a base error carries the remaining
input at the point of failure (as nom errors do); `alt` combines the errors
of the two branches of an alternation. -/
inductive ETree where
  | base (remaining : Bits) (kind : ErrKind)
  | alt (first second : ETree)
deriving DecidableEq, Repr

/-- Result of a bit-level parser: mirrors `IResult` with `ok` (tail and
value), recoverable `err` (`nom::Err::Error`) and unrecoverable `fail`
(`nom::Err::Failure`, produced by `.cut()`). -/
inductive PResult (α : Type) where
  | ok (tail : Bits) (val : α)
  | err (e : ETree)
  | fail (e : ETree)
deriving DecidableEq, Repr

/-- MSB-first value of a bit string (how nom's bit-level `take`
accumulates the bits it reads). -/
def bitsToNat (l : Bits) : Nat :=
  l.foldl (fun acc b => 2 * acc + (if b then 1 else 0)) 0

/-- Rust `take(n)` from `nom::bits::complete` (used by `take_bits::<T, N>` in
the source): read `n` bits MSB-first; `Error(Eof)` at the current input if
fewer than `n` bits remain. -/
def take_bits (n : Nat) (input : Bits) : PResult Nat :=
  if n ≤ input.length then .ok (input.drop n) (bitsToNat (input.take n))
  else .err (.base input .eof)

/-- Rust `tag_bits(pattern, count)`: read `count` bits and require their value
to equal `pattern`; `Error(TagBits)` at the original input otherwise. -/
def tag_bits (pattern count : Nat) (input : Bits) : PResult Unit :=
  match take_bits count input with
  | .ok tail v => if v = pattern then .ok tail () else .err (.base input .tagBits)
  | .err e => .err e
  | .fail e => .fail e

/-- Rust `take_bit`: one bit as a bool (`take_bits::<u8, 1>` mapped by `!= 0`). -/
def take_bit (input : Bits) : PResult Bool :=
  match take_bits 1 input with
  | .ok tail v => .ok tail (v ≠ 0)
  | .err e => .err e
  | .fail e => .fail e

/-- Rust `parse_chunk`: a literal-value chunk — one continuation bit followed by
a 4-bit payload (`pair(take_bit, take_bits::<u8, 4>)`). -/
def parse_chunk (input : Bits) : PResult (Bool × Nat) :=
  match take_bit input with
  | .ok i1 more =>
    match take_bits 4 i1 with
    | .ok tail payload => .ok tail (more, payload)
    | .err e => .err e
    | .fail e => .fail e
  | .err e => .err e
  | .fail e => .fail e

/-- The chunk loop of `parse_literal_packet`: repeatedly parse a chunk
(under `.cut()`, so chunk errors become failures), accumulate
`result = (result << 4) + payload` on a `u64` (wrapping model; the shifted
value's low 4 bits are zero so the addition itself cannot overflow), and
stop after a chunk whose continuation bit is clear. Structurally recursive
on fuel. -/
def parse_chunks_f : Nat → Bits → Nat → PResult Nat
  | 0, input, _ => .fail (.base input .fuelOut)
  | fuel + 1, input, acc =>
    match parse_chunk input with
    | .ok tail (more, payload) =>
      let acc' := (acc * 16 + payload) % U64
      if more then parse_chunks_f fuel tail acc' else .ok tail acc'
    | .err e => .fail e
    | .fail e => .fail e

/-- Rust `parse_literal_packet`: `tag_bits(4, 3)` for the type id, then the
chunk loop starting from 0. -/
def parse_literal_packet_f (fuel : Nat) (input : Bits) : PResult Nat :=
  match tag_bits 4 3 input with
  | .ok tail () => parse_chunks_f fuel tail 0
  | .err e => .err e
  | .fail e => .fail e

/-- The opcode table of `parse_opcode` (type id 4 is the literal tag and
is absent, as are values above 7 which three bits cannot produce). -/
def decode_opcode : Nat → Option Opcode
  | 0 => some .sum
  | 1 => some .product
  | 2 => some .min
  | 3 => some .max
  | 5 => some .greater
  | 6 => some .less
  | 7 => some .eq
  | _ => none

/-- Rust `parse_opcode`: three bits, mapped through the opcode table;
`Error(TagBits)` at the original input for an unmapped value. -/
def parse_opcode (input : Bits) : PResult Opcode :=
  match take_bits 3 input with
  | .ok tail t =>
    match decode_opcode t with
    | some code => .ok tail code
    | none => .err (.base input .tagBits)
  | .err e => .err e
  | .fail e => .fail e

/-- Rust `enum OperatorLength { Bits(usize), Packets(usize) }`. -/
inductive OperatorLength where
  | Bits (n : Nat)
  | Packets (n : Nat)
deriving DecidableEq, Repr

/-- Rust `OperatorLength::empty`: `matches!(Bits(0) | Packets(0))`. -/
def OperatorLength.empty : OperatorLength → Bool
  | .Bits 0 => true
  | .Packets 0 => true
  | _ => false

/-- Rust `parse_operator_length`: a length-type bit, then 15 bits (`Bits`) when
it is clear or 11 bits (`Packets`) when it is set. -/
def parse_operator_length (input : Bits) : PResult OperatorLength :=
  match take_bit input with
  | .ok tail b =>
    match b with
    | false =>
      match take_bits 15 tail with
      | .ok t2 n => .ok t2 (.Bits n)
      | .err e => .err e
      | .fail e => .fail e
    | true =>
      match take_bits 11 tail with
      | .ok t2 n => .ok t2 (.Packets n)
      | .err e => .err e
      | .fail e => .fail e
  | .err e => .err e
  | .fail e => .fail e

/-- The `while !length.empty()` loop of `parse_operator_packet`,
parametrised by the sub-packet parser `pp` (the recursive `parse_packet`,
under `.cut()`). After each sub-packet the `Bits` budget is decremented by
the bits that packet consumed — an unchecked `usize` subtraction in the
source, so modelled as wrapping (`wsub64`); the `Packets` countdown is
decremented by 1 (never 0 when decremented, so exact). Packets are pushed
in order. Structurally recursive on fuel. -/
def parse_op_loop (pp : Bits → PResult Packet) :
    Nat → Opcode → OperatorLength → Bits → List Packet → PResult Operator
  | 0, _, _, input, _ => .fail (.base input .fuelOut)
  | fuel + 1, opcode, length, input, packets =>
    if length.empty then .ok input (.mk opcode packets)
    else
      match pp input with
      | .ok tail packet =>
        let length' : OperatorLength :=
          match length with
          | .Bits bit_count => .Bits (wsub64 bit_count (input.length - tail.length))
          | .Packets count => .Packets (count - 1)
        parse_op_loop pp fuel opcode length' tail (packets ++ [packet])
      | .err e => .fail e
      | .fail e => .fail e

/-- Rust `parse_operator_packet` body, parametrised by the sub-packet parser:
opcode, then the operator length (under `.cut()`), then the sub-packet
loop starting from an empty vector. -/
def parse_operator_packet_p (pp : Bits → PResult Packet) (fuel : Nat)
    (input : Bits) : PResult Operator :=
  match parse_opcode input with
  | .ok i1 opcode =>
    match parse_operator_length i1 with
    | .ok i2 length => parse_op_loop pp fuel opcode length i2 []
    | .err e => .fail e
    | .fail e => .fail e
  | .err e => .err e
  | .fail e => .fail e

/-- Rust `parse_packet`: three version bits, then
`alt((parse_literal_packet, parse_operator_packet))`; the literal branch
is tried first, and only a recoverable error lets the operator branch run
(a `.cut()` failure aborts the alternation). Structurally recursive on
fuel. -/
def parse_packet_f : Nat → Bits → PResult Packet
  | 0, input => .fail (.base input .fuelOut)
  | fuel + 1, input =>
    match take_bits 3 input with
    | .ok i1 version =>
      match parse_literal_packet_f fuel i1 with
      | .ok tail v => .ok tail (.mk version (.literal v))
      | .fail e => .fail e
      | .err e1 =>
        match parse_operator_packet_p (parse_packet_f fuel) fuel i1 with
        | .ok tail op => .ok tail (.mk version (.operator op))
        | .err e2 => .err (.alt e1 e2)
        | .fail e => .fail e
    | .err e => .err e
    | .fail e => .fail e

/-- Rust `parse_packet` with its fuel instantiated (`input.length + 1` is
sufficient: each fuel unit is only spent after strictly consuming input). -/
def parse_packet (input : Bits) : PResult Packet :=
  parse_packet_f (input.length + 1) input

/-- Rust `parse_literal_packet` with its fuel instantiated. -/
def parse_literal_packet (input : Bits) : PResult Nat :=
  parse_literal_packet_f (input.length + 1) input

/-- Rust `parse_operator_packet` with its fuel instantiated. -/
def parse_operator_packet (input : Bits) : PResult Operator :=
  parse_operator_packet_p (parse_packet_f (input.length + 1)) (input.length + 1) input

/-- The `parse_trailing_zeroes` parser of `final_parse_top_packet`:
`collect_separated_terminated(tag_bits(0, 1), success, eof)`.
`parse_separated_terminated` parses ONE OR MORE items — it always parses
an item before attempting the terminator — so on empty input the 0-bit
item fails with `Error(Eof)` (no zero-padding at all is rejected); after
each parsed 0-bit the `eof` terminator is attempted, succeeding exactly at
the end of input; a 1-bit makes the item fail with `TagBits`. -/
def parse_trailing_zeroes : Bits → PResult Unit
  | [] => .err (.base [] .eof)
  | true :: rest => .err (.base (true :: rest) .tagBits)
  | false :: rest =>
    if rest = [] then .ok [] () else parse_trailing_zeroes rest

/-- Rust `final_parse_top_packet` (over the bit stream of the byte buffer):
one packet from bit 0, then one or more zero bits to the end
(`parse_packet.terminated(parse_trailing_zeroes).complete().all_consuming()`);
a packet that consumes the entire buffer leaves nothing for the
one-or-more trailing parser, which then fails. The conversion of the error
tree to `BitErrorLocation` coordinates is omitted: it only reformats the
failure position that `ETree` already carries. -/
def final_parse_top_packet (input : Bits) : Except ETree Packet :=
  match parse_packet input with
  | .ok tail p =>
    match parse_trailing_zeroes tail with
    | .ok _ _ => .ok p
    | .err e => .error e
    | .fail e => .error e
  | .err e => .error e
  | .fail e => .error e

/-! ### Hex lexing (`parse_hex_byte`, `parse_hex`, `final_parse_hex`)

The Rust functions work on `&str`; they are modelled on `List Char`.
All inputs the claims quantify over are restricted to ASCII characters,
where byte indexing (`str::split_at(2)`) and character indexing coincide
and `str::trim`'s Unicode whitespace classes agree with the ASCII ones. -/

/-- Value of one hexadecimal digit (what `char::to_digit(16)` accepts:
`0-9`, `a-f`, `A-F`, here by their code points 48–57, 97–102, 65–70). -/
def hexDigitVal (c : Char) : Option Nat :=
  if 48 ≤ c.toNat ∧ c.toNat ≤ 57 then some (c.toNat - 48)
  else if 97 ≤ c.toNat ∧ c.toNat ≤ 102 then some (c.toNat - 87)
  else if 65 ≤ c.toNat ∧ c.toNat ≤ 70 then some (c.toNat - 55)
  else none

/-- Digit accumulation of `u8::from_str_radix(s, 16)` after the optional
sign: at least one digit, all hexadecimal, with a `u8` range check (the
source only ever passes one or two digits, which cannot overflow). -/
def hexDigitsVal : List Char → Option Nat
  | [] => none
  | [c] => hexDigitVal c
  | c :: rest =>
    match hexDigitVal c, hexDigitsVal rest with
    | some v, some r =>
      let n := v * 16 ^ rest.length + r
      if n ≤ 255 then some n else none
    | _, _ => none

/-- Rust `u8::from_str_radix(s, 16)`: an optional leading `+` sign
followed by hex digits (`from_str_radix` "accepts strings such as +512").
For an unsigned type a leading `-` is NOT stripped — core only strips
`b'-'` for signed types — so it reaches the digit loop, where `'-'` is an
invalid digit and the whole parse errors. -/
def from_str_radix16_u8 (s : List Char) : Option Nat :=
  match s with
  | [] => none
  | c :: rest =>
    if c = '+' then hexDigitsVal rest
    else hexDigitsVal (c :: rest)

/-- Hex-level error: a base `ErrorKind::HexDigit` error carrying the
remaining input at the failure, as `ErrorTree::from_error_kind` does. -/
inductive HErr where
  | base (remaining : List Char)
deriving DecidableEq, Repr

/-- Rust `parse_hex_byte`: empty input errors; a single trailing digit becomes
the high nibble (`b << 4` on a `u8`, modelled `(b * 16) % 256`); otherwise
the first two characters form one byte via `from_str_radix`. -/
def parse_hex_byte : List Char → Except HErr (List Char × Nat)
  | [] => .error (.base [])
  | [c] =>
    match from_str_radix16_u8 [c] with
    | some b => .ok ([], b * 16 % 256)
    | none => .error (.base [c])
  | c1 :: c2 :: tail =>
    match from_str_radix16_u8 [c1, c2] with
    | some b => .ok (tail, b)
    | none => .error (.base (c1 :: c2 :: tail))

/-- The `collect_separated_terminated(parse_hex_byte, success, eof)` loop
of `parse_hex`: one or more byte groups up to end of input. As with every
`parse_separated_terminated`, an item is parsed before the terminator is
ever attempted, so empty input fails with `parse_hex_byte`'s empty-input
error; after each group the `eof` terminator is attempted. (The recursion
consumes the two- or one-character group directly; `parse_hex_byte`
returns exactly that tail.) -/
def parse_hex_loop : List Char → Except HErr (List Nat)
  | [] => .error (.base [])
  | [c] =>
    match parse_hex_byte [c] with
    | .ok (_, b) => .ok [b]
    | .error e => .error e
  | c1 :: c2 :: tail =>
    match parse_hex_byte (c1 :: c2 :: tail) with
    | .ok (_, b) =>
      if tail = [] then .ok [b]
      else
        match parse_hex_loop tail with
        | .ok bs => .ok (b :: bs)
        | .error e => .error e
    | .error e => .error e

/-- ASCII model of the whitespace predicate of `str::trim`. -/
def isWs (c : Char) : Bool := c = ' ' ∨ c = '\t' ∨ c = '\n' ∨ c = '\r'

/-- Rust `str::trim`: strip whitespace from both ends. -/
def trim (s : List Char) : List Char :=
  ((s.dropWhile isWs).reverse.dropWhile isWs).reverse

/-- Rust `parse_hex`: the byte loop applied to `input.trim()`. -/
def parse_hex (input : List Char) : Except HErr (List Nat) :=
  parse_hex_loop (trim input)

/-- Rust `nom_supreme::final_parser::Location`, reduced to the 0-based byte
offset of the failure within the original (untrimmed) input; the source
renders it 1-based as a line/column pair. -/
structure Location where
  index : Nat
deriving DecidableEq, Repr

/-- Number of leading whitespace characters stripped by `trim`. -/
def leadWs (input : List Char) : Nat :=
  input.length - (input.dropWhile isWs).length

/-- Rust `final_parse_hex`: run `parse_hex` and convert the error's remaining
input to its offset in the original string (leading trimmed whitespace
plus the consumed part of the trimmed input). -/
def final_parse_hex (input : List Char) : Except Location (List Nat) :=
  match parse_hex input with
  | .ok bytes => .ok bytes
  | .error (.base rem) =>
    .error ⟨leadWs input + ((trim input).length - rem.length)⟩

/-- One byte as its eight bits, MSB first (how the bit cursor
`(&[u8], usize)` exposes a byte). -/
def byteToBits (b : Nat) : Bits :=
  [b.testBit 7, b.testBit 6, b.testBit 5, b.testBit 4,
   b.testBit 3, b.testBit 2, b.testBit 1, b.testBit 0]

/-- A byte buffer as its bit stream, MSB first within each byte. -/
def bytesToBits (bytes : List Nat) : Bits :=
  bytes.flatMap byteToBits

/-- Rust `enum HexPacketParseError`: which phase failed. -/
inductive HexPacketParseError where
  | HexError (e : Location)
  | BitError (e : ETree)
deriving DecidableEq, Repr

/-- Rust `final_parse_hex_packet`: hex decode, then top-level bit parse. -/
def final_parse_hex_packet (input : List Char) : Except HexPacketParseError Packet :=
  match final_parse_hex input with
  | .error e => .error (.HexError e)
  | .ok bytes =>
    match final_parse_top_packet (bytesToBits bytes) with
    | .error e => .error (.BitError e)
    | .ok p => .ok p

/-- Rust `part1`: version sum of the parsed packet. -/
def part1 (input : List Char) : Except HexPacketParseError Nat :=
  match final_parse_hex_packet input with
  | .ok p => .ok p.version_sum
  | .error e => .error e

/-- Rust `part2`: evaluated value of the parsed packet. -/
def part2 (input : List Char) : Except HexPacketParseError Nat :=
  match final_parse_hex_packet input with
  | .ok p => .ok p.value
  | .error e => .error e

/-- The sub-packets of a packet: none for a literal, the operands for an
operator (the notion of "children" the spec's `version_sum` equation
quantifies over). -/
def Packet.children : Packet → List Packet
  | .mk _ (.literal _) => []
  | .mk _ (.operator (.mk _ ops)) => ops

/-- The four bits of a value below 16, MSB first (a literal chunk's
payload group). -/
def nibbleBits (g : Nat) : Bits :=
  [g.testBit 3, g.testBit 2, g.testBit 1, g.testBit 0]

/-- Bits of one minimal literal packet: version 000, type id 100, then a
single chunk `0 0000` — 11 bits encoding the literal value 0. -/
def litPacketBits : Bits :=
  [false, false, false, true, false, false, false, false, false, false, false]

/-- An operator packet declaring a 1-bit sub-packet budget (`Bits(1)`)
followed by two 11-bit literal packets: opcode `000` (Sum), length-type
bit 0, 15-bit length `…0001`, then the two literals. The first sub-packet
alone consumes 11 bits, overrunning the budget of 1. -/
def c1OverrunBits : Bits :=
  [false, false, false] ++ [false] ++ (List.replicate 14 false ++ [true])
    ++ litPacketBits ++ litPacketBits

/-- An operator packet declaring `Bits(11)` followed by exactly one 11-bit
literal packet, so the declared budget is consumed exactly. -/
def c1ExactBits : Bits :=
  [false, false, false] ++ [false]
    ++ (List.replicate 11 false ++ [true, false, true, true]) ++ litPacketBits

/-! ### Basic lemmas about the bit primitives -/

theorem bitsToNat_foldl (l : Bits) (acc : Nat) :
    l.foldl (fun a b => 2 * a + (if b then 1 else 0)) acc
      = acc * 2 ^ l.length + bitsToNat l := by
  induction l generalizing acc with
  | nil => simp [bitsToNat]
  | cons b t ih =>
    simp only [List.foldl_cons, List.length_cons, bitsToNat, Nat.mul_zero, Nat.zero_add]
    rw [ih, ih (if b then 1 else 0)]
    ring

theorem bitsToNat_lt (l : Bits) : bitsToNat l < 2 ^ l.length := by
  induction l with
  | nil => simp [bitsToNat]
  | cons b t ih =>
    have h := bitsToNat_foldl t (if b then 1 else 0)
    simp only [bitsToNat, List.foldl_cons, List.length_cons, Nat.mul_zero, Nat.zero_add] at *
    rw [h]
    have hb : (if b then 1 else 0) ≤ 1 := by split <;> omega
    have h2 : 2 ^ (t.length + 1) = 2 ^ t.length + 2 ^ t.length := by ring
    nlinarith [Nat.pos_pow_of_pos t.length (by omega : 0 < 2)]

theorem take_bits_ok {n : Nat} {input tail : Bits} {v : Nat}
    (h : take_bits n input = .ok tail v) :
    n ≤ input.length ∧ tail = input.drop n ∧ v = bitsToNat (input.take n) := by
  unfold take_bits at h
  split at h
  · cases h; exact ⟨by assumption, rfl, rfl⟩
  · cases h

theorem take_bits_of_le {n : Nat} {input : Bits} (h : n ≤ input.length) :
    take_bits n input = .ok (input.drop n) (bitsToNat (input.take n)) := by
  simp [take_bits, h]

theorem take_bits_append {n : Nat} {input tail : Bits} {v : Nat} (ex : Bits)
    (h : take_bits n input = .ok tail v) :
    take_bits n (input ++ ex) = .ok (tail ++ ex) v := by
  obtain ⟨hle, ht, hv⟩ := take_bits_ok h
  subst ht hv
  rw [take_bits_of_le (by simp; omega)]
  rw [List.take_append_of_le_length hle, List.drop_append_of_le_length hle]

theorem take_bits_err {n : Nat} {input : Bits} {e : ETree}
    (h : take_bits n input = .err e) :
    input.length < n ∧ e = .base input .eof := by
  unfold take_bits at h
  split at h
  · cases h
  · cases h; exact ⟨by omega, rfl⟩

theorem take_bit_ok {input tail : Bits} {b : Bool} (h : take_bit input = .ok tail b) :
    1 ≤ input.length ∧ tail = input.drop 1 := by
  unfold take_bit at h
  split at h
  · cases h
    next heq => exact ⟨(take_bits_ok heq).1, (take_bits_ok heq).2.1⟩
  · cases h
  · cases h

theorem tag_bits_ok {pat cnt : Nat} {input tail : Bits} (h : tag_bits pat cnt input = .ok tail ()) :
    cnt ≤ input.length ∧ tail = input.drop cnt ∧ bitsToNat (input.take cnt) = pat := by
  unfold tag_bits at h
  split at h
  next v heq =>
    split at h
    · cases h
      obtain ⟨h1, h2, h3⟩ := take_bits_ok heq
      exact ⟨h1, h2, by omega⟩
    · cases h
  · cases h
  · cases h

theorem parse_chunk_ok {input tail : Bits} {mp : Bool × Nat}
    (h : parse_chunk input = .ok tail mp) :
    5 ≤ input.length ∧ tail = input.drop 5 := by
  unfold parse_chunk at h
  split at h
  next i1 more heq1 =>
    split at h
    next payload heq2 =>
      cases h
      obtain ⟨ha, hb⟩ := take_bit_ok heq1
      obtain ⟨hc, hd, _⟩ := take_bits_ok heq2
      subst hb hd
      constructor
      · simp at hc; omega
      · simp [List.drop_drop]
    · cases h
    · cases h
  · cases h
  · cases h

/-! ### Consumption: a successful parse strictly consumes input -/

theorem parse_chunks_f_len {f : Nat} :
    ∀ {input : Bits} {acc : Nat} {tail : Bits} {v : Nat},
      parse_chunks_f f input acc = .ok tail v → tail.length + 5 ≤ input.length := by
  induction f with
  | zero => intro input acc tail v h; cases h
  | succ f ih =>
    intro input acc tail v h
    unfold parse_chunks_f at h
    split at h
    next mp tail0 more payload heq =>
      obtain ⟨h5, hdrop⟩ := parse_chunk_ok heq
      split at h
      · have := ih h
        subst hdrop
        simp at this ⊢
        omega
      · cases h
        subst hdrop
        simp
        omega
    · cases h
    · cases h

theorem parse_literal_packet_f_len {f : Nat} {input tail : Bits} {v : Nat}
    (h : parse_literal_packet_f f input = .ok tail v) : tail.length + 8 ≤ input.length := by
  unfold parse_literal_packet_f at h
  split at h
  next t0 heq =>
    obtain ⟨h3, hd, _⟩ := tag_bits_ok heq
    have := parse_chunks_f_len h
    subst hd
    simp at this
    omega
  · cases h
  · cases h

theorem parse_op_loop_len {pp : Bits → PResult Packet}
    (Hc : ∀ i t v, pp i = .ok t v → t.length < i.length) :
    ∀ {f : Nat} {code : Opcode} {len : OperatorLength} {input : Bits}
      {acc : List Packet} {tail : Bits} {op : Operator},
      parse_op_loop pp f code len input acc = .ok tail op → tail.length ≤ input.length := by
  intro f
  induction f with
  | zero => intro _ _ input acc tail op h; cases h
  | succ f ih =>
    intro code len input acc tail op h
    unfold parse_op_loop at h
    split at h
    · cases h; exact le_refl _
    · split at h
      next mid pk heq =>
        have h1 := Hc _ _ _ heq
        have h2 := ih h
        omega
      · cases h
      · cases h

theorem parse_operator_packet_p_len {pp : Bits → PResult Packet}
    (Hc : ∀ i t v, pp i = .ok t v → t.length < i.length)
    {f : Nat} {input tail : Bits} {op : Operator}
    (h : parse_operator_packet_p pp f input = .ok tail op) :
    tail.length + 15 ≤ input.length := by
  unfold parse_operator_packet_p at h
  split at h
  next i1 code heq1 =>
    split at h
    next i2 len heq2 =>
      have h1 : i1 = input.drop 3 ∧ 3 ≤ input.length := by
        unfold parse_opcode at heq1
        split at heq1
        next heq =>
          split at heq1
          · cases heq1; exact ⟨(take_bits_ok heq).2.1, (take_bits_ok heq).1⟩
          · cases heq1
        · cases heq1
        · cases heq1
      have h2 : i2.length + 12 ≤ i1.length := by
        unfold parse_operator_length at heq2
        split at heq2
        next b heqb =>
          obtain ⟨hb1, hb2⟩ := take_bit_ok heqb
          split at heq2
          · split at heq2
            next heqn =>
              cases heq2
              obtain ⟨hn1, hn2, _⟩ := take_bits_ok heqn
              subst hn2 hb2
              simp at hn1 ⊢
              omega
            · cases heq2
            · cases heq2
          · split at heq2
            next heqn =>
              cases heq2
              obtain ⟨hn1, hn2, _⟩ := take_bits_ok heqn
              subst hn2 hb2
              simp at hn1 ⊢
              omega
            · cases heq2
            · cases heq2
        · cases heq2
        · cases heq2
      have h3 := parse_op_loop_len Hc h
      obtain ⟨hi1, _⟩ := h1
      subst hi1
      simp at h2
      omega
    · cases h
    · cases h
  · cases h
  · cases h

theorem parse_packet_f_len :
    ∀ {f : Nat} {input tail : Bits} {p : Packet},
      parse_packet_f f input = .ok tail p → tail.length < input.length := by
  intro f
  induction f with
  | zero => intro input tail p h; cases h
  | succ f ih =>
    intro input tail p h
    unfold parse_packet_f at h
    split at h
    next i1 version heq =>
      obtain ⟨h3, hd, _⟩ := take_bits_ok heq
      split at h
      next v heqlit =>
        cases h
        have := parse_literal_packet_f_len heqlit
        subst hd
        simp at this
        omega
      · cases h
      · split at h
        next op heqop =>
          cases h
          have := parse_operator_packet_p_len (fun i t v hh => ih hh) heqop
          subst hd
          simp at this
          omega
        · cases h
        · cases h
    · cases h
    · cases h

/-! ### Fuel monotonicity: a successful parse is preserved by more fuel -/

theorem parse_chunks_f_mono :
    ∀ {f f' : Nat}, f ≤ f' →
      ∀ {input : Bits} {acc : Nat} {tail : Bits} {v : Nat},
        parse_chunks_f f input acc = .ok tail v → parse_chunks_f f' input acc = .ok tail v := by
  intro f
  induction f with
  | zero => intro f' _ input acc tail v h; cases h
  | succ f ih =>
    intro f' hle input acc tail v h
    match f', hle with
    | f' + 1, hle =>
      unfold parse_chunks_f at h ⊢
      split at h
      next mp tail0 more payload heq =>
        rw [heq] at *
        split at h
        next hmore =>
          simp only [hmore, if_true] at *
          exact ih (by omega) h
        next hmore =>
          simp only [hmore] at *
          exact h
      · cases h
      · cases h

theorem parse_literal_packet_f_mono {f f' : Nat} (hle : f ≤ f') {input tail : Bits} {v : Nat}
    (h : parse_literal_packet_f f input = .ok tail v) :
    parse_literal_packet_f f' input = .ok tail v := by
  unfold parse_literal_packet_f at h ⊢
  split at h
  next heq =>
    exact parse_chunks_f_mono hle h
  · cases h
  · cases h

theorem parse_chunks_f_ne_err {f : Nat} :
    ∀ {input : Bits} {acc : Nat} {e : ETree}, parse_chunks_f f input acc ≠ .err e := by
  induction f with
  | zero => intro input acc e h; cases h
  | succ f ih =>
    intro input acc e h
    unfold parse_chunks_f at h
    split at h
    next mp tail0 more payload heq =>
      split at h
      · exact ih h
      · cases h
    · cases h
    · cases h

theorem parse_literal_packet_f_err_stable {f : Nat} {input : Bits} {e : ETree}
    (h : parse_literal_packet_f f input = .err e) (f' : Nat) :
    parse_literal_packet_f f' input = .err e := by
  unfold parse_literal_packet_f at h ⊢
  split at h
  next heq =>
    exact absurd h parse_chunks_f_ne_err
  next e0 heq =>
    cases h
    rfl
  · cases h

theorem parse_op_loop_mono {pp pp' : Bits → PResult Packet}
    (Hpp : ∀ i t v, pp i = .ok t v → pp' i = .ok t v) :
    ∀ {f f' : Nat}, f ≤ f' →
      ∀ {code : Opcode} {len : OperatorLength} {input : Bits} {acc : List Packet}
        {tail : Bits} {op : Operator},
        parse_op_loop pp f code len input acc = .ok tail op →
        parse_op_loop pp' f' code len input acc = .ok tail op := by
  intro f
  induction f with
  | zero => intro f' _ _ len input acc tail op h; cases h
  | succ f ih =>
    intro f' hle code len input acc tail op h
    match f', hle with
    | f' + 1, hle =>
      unfold parse_op_loop at h ⊢
      split at h
      next hcond =>
        rw [if_pos hcond]
        exact h
      next hcond =>
        rw [if_neg hcond]
        split at h
        next mid pk heq =>
          rw [Hpp _ _ _ heq]
          exact ih (Nat.le_of_succ_le_succ hle) h
        · cases h
        · cases h

theorem parse_operator_packet_p_mono {pp pp' : Bits → PResult Packet}
    (Hpp : ∀ i t v, pp i = .ok t v → pp' i = .ok t v)
    {f f' : Nat} (hle : f ≤ f') {input tail : Bits} {op : Operator}
    (h : parse_operator_packet_p pp f input = .ok tail op) :
    parse_operator_packet_p pp' f' input = .ok tail op := by
  unfold parse_operator_packet_p at h ⊢
  split at h
  next i1 code heq1 =>
    split at h
    next i2 len heq2 =>
      exact parse_op_loop_mono Hpp hle h
    · cases h
    · cases h
  · cases h
  · cases h

theorem parse_packet_f_mono :
    ∀ {f f' : Nat}, f ≤ f' →
      ∀ {input tail : Bits} {p : Packet},
        parse_packet_f f input = .ok tail p → parse_packet_f f' input = .ok tail p := by
  intro f
  induction f with
  | zero => intro f' _ input tail p h; cases h
  | succ f ih =>
    intro f' hle input tail p h
    match f', hle with
    | f' + 1, hle =>
      have hff : f ≤ f' := Nat.le_of_succ_le_succ hle
      unfold parse_packet_f at h ⊢
      split at h
      next i1 version heq =>
        split at h
        next v heqlit =>
          cases h
          rw [parse_literal_packet_f_mono hff heqlit]
        · cases h
        next e1 heqlit =>
          rw [parse_literal_packet_f_err_stable heqlit f']
          split at h
          next op heqop =>
            cases h
            rw [parse_operator_packet_p_mono (fun i t v hh => ih hff hh) hff heqop]
          · cases h
          · cases h
      · cases h
      · cases h

/-! ### Inversion lemmas for the header parsers -/

theorem parse_opcode_ok {input tail : Bits} {code : Opcode}
    (h : parse_opcode input = .ok tail code) :
    3 ≤ input.length ∧ tail = input.drop 3
      ∧ decode_opcode (bitsToNat (input.take 3)) = some code := by
  unfold parse_opcode at h
  split at h
  next t v heq =>
    split at h
    next heqd =>
      cases h
      obtain ⟨h1, h2, h3⟩ := take_bits_ok heq
      subst h2 h3
      exact ⟨h1, rfl, heqd⟩
    · cases h
  · cases h
  · cases h

theorem parse_operator_length_ok_bits {input tail : Bits} {n : Nat}
    (h : parse_operator_length input = .ok tail (.Bits n)) :
    16 ≤ input.length ∧ tail = input.drop 16 ∧ n < 2 ^ 15 := by
  unfold parse_operator_length at h
  split at h
  next t1 b heqb =>
    obtain ⟨hb1, hb2⟩ := take_bit_ok heqb
    subst hb2
    match b with
    | false =>
      simp only at h
      split at h
      next t2 m heqn =>
        cases h
        obtain ⟨hn1, hn2, hn3⟩ := take_bits_ok heqn
        subst hn2 hn3
        refine ⟨by simp at hn1 ⊢; omega, by rw [List.drop_drop], ?_⟩
        have := bitsToNat_lt ((input.drop 1).take 15)
        have hlen : ((input.drop 1).take 15).length = 15 := by
          simp at hn1 ⊢; omega
        rw [hlen] at this
        exact this
      · cases h
      · cases h
    | true =>
      simp only at h
      split at h
      next t2 m heqn => cases h
      · cases h
      · cases h
  · cases h
  · cases h

theorem parse_operator_length_ok_packets {input tail : Bits} {n : Nat}
    (h : parse_operator_length input = .ok tail (.Packets n)) :
    12 ≤ input.length ∧ tail = input.drop 12 ∧ n < 2 ^ 11 := by
  unfold parse_operator_length at h
  split at h
  next t1 b heqb =>
    obtain ⟨hb1, hb2⟩ := take_bit_ok heqb
    subst hb2
    match b with
    | true =>
      simp only at h
      split at h
      next t2 m heqn =>
        cases h
        obtain ⟨hn1, hn2, hn3⟩ := take_bits_ok heqn
        subst hn2 hn3
        refine ⟨by simp at hn1 ⊢; omega, by rw [List.drop_drop], ?_⟩
        have := bitsToNat_lt ((input.drop 1).take 11)
        have hlen : ((input.drop 1).take 11).length = 11 := by
          simp at hn1 ⊢; omega
        rw [hlen] at this
        exact this
      · cases h
      · cases h
    | false =>
      simp only at h
      split at h
      next t2 m heqn => cases h
      · cases h
      · cases h
  · cases h
  · cases h

/-! ### Extension: a successful parse only looks at the bits it consumes,
so appending a suffix leaves its result intact (with the suffix appended
to the tail). -/

theorem take_bit_append {input tail : Bits} {b : Bool} (ex : Bits)
    (h : take_bit input = .ok tail b) : take_bit (input ++ ex) = .ok (tail ++ ex) b := by
  unfold take_bit at h ⊢
  split at h
  next t v heq =>
    cases h
    rw [take_bits_append ex heq]
  · cases h
  · cases h

theorem tag_bits_append {pat cnt : Nat} {input tail : Bits} (ex : Bits)
    (h : tag_bits pat cnt input = .ok tail ()) :
    tag_bits pat cnt (input ++ ex) = .ok (tail ++ ex) () := by
  unfold tag_bits at h ⊢
  split at h
  next t v heq =>
    split at h
    next hv =>
      cases h
      simp [take_bits_append ex heq, hv]
    · cases h
  · cases h
  · cases h

theorem parse_chunk_append {input tail : Bits} {mp : Bool × Nat} (ex : Bits)
    (h : parse_chunk input = .ok tail mp) :
    parse_chunk (input ++ ex) = .ok (tail ++ ex) mp := by
  unfold parse_chunk at h ⊢
  split at h
  next i1 more heq1 =>
    split at h
    next payload heq2 =>
      cases h
      simp [take_bit_append ex heq1, take_bits_append ex heq2]
    · cases h
    · cases h
  · cases h
  · cases h

theorem parse_chunks_f_append :
    ∀ {f : Nat} {input : Bits} {acc : Nat} {tail : Bits} {v : Nat} (ex : Bits),
      parse_chunks_f f input acc = .ok tail v →
      parse_chunks_f f (input ++ ex) acc = .ok (tail ++ ex) v := by
  intro f
  induction f with
  | zero => intro input acc tail v ex h; cases h
  | succ f ih =>
    intro input acc tail v ex h
    unfold parse_chunks_f at h ⊢
    split at h
    next mp tail0 more payload heq =>
      split at h
      next hmore =>
        simp only [parse_chunk_append ex heq, if_pos hmore]
        exact ih ex h
      next hmore =>
        cases h
        simp only [parse_chunk_append ex heq, if_neg hmore]
    · cases h
    · cases h

theorem parse_literal_packet_f_append {f : Nat} {input tail : Bits} {v : Nat} (ex : Bits)
    (h : parse_literal_packet_f f input = .ok tail v) :
    parse_literal_packet_f f (input ++ ex) = .ok (tail ++ ex) v := by
  unfold parse_literal_packet_f at h ⊢
  split at h
  next heq =>
    simp only [tag_bits_append ex heq]
    exact parse_chunks_f_append ex h
  · cases h
  · cases h

theorem parse_literal_packet_f_err_append {f : Nat} {input : Bits} {e : ETree} (ex : Bits)
    (hlen : 3 ≤ input.length) (h : parse_literal_packet_f f input = .err e) :
    parse_literal_packet_f f (input ++ ex) = .err (.base (input ++ ex) .tagBits) := by
  unfold parse_literal_packet_f at h ⊢
  split at h
  next heq => exact absurd h parse_chunks_f_ne_err
  next e0 heq =>
    cases h
    unfold tag_bits at heq ⊢
    split at heq
    next t v heqt =>
      split at heq
      · cases heq
      next hv =>
        cases heq
        simp only [take_bits_append ex heqt, if_neg hv]
    next e1 heqt =>
      obtain ⟨hl, _⟩ := take_bits_err heqt
      omega
    · cases heq
  · cases h

theorem parse_opcode_append {input tail : Bits} {code : Opcode} (ex : Bits)
    (h : parse_opcode input = .ok tail code) :
    parse_opcode (input ++ ex) = .ok (tail ++ ex) code := by
  unfold parse_opcode at h ⊢
  split at h
  next t v heq =>
    split at h
    next heqd =>
      cases h
      simp only [take_bits_append ex heq, heqd]
    · cases h
  · cases h
  · cases h

theorem parse_operator_length_append {input tail : Bits} {len : OperatorLength} (ex : Bits)
    (h : parse_operator_length input = .ok tail len) :
    parse_operator_length (input ++ ex) = .ok (tail ++ ex) len := by
  unfold parse_operator_length at h ⊢
  split at h
  next t1 b heqb =>
    simp only [take_bit_append ex heqb]
    match b with
    | false =>
      simp only at h ⊢
      split at h
      next t2 m heqn =>
        cases h
        simp only [take_bits_append ex heqn]
      · cases h
      · cases h
    | true =>
      simp only at h ⊢
      split at h
      next t2 m heqn =>
        cases h
        simp only [take_bits_append ex heqn]
      · cases h
      · cases h
  · cases h
  · cases h

theorem parse_op_loop_append {pp : Bits → PResult Packet}
    (Hext : ∀ i t v (ex : Bits), pp i = .ok t v → pp (i ++ ex) = .ok (t ++ ex) v) :
    ∀ {f : Nat} {code : Opcode} {len : OperatorLength} {input : Bits}
      {acc : List Packet} {tail : Bits} {op : Operator} (ex : Bits),
      parse_op_loop pp f code len input acc = .ok tail op →
      parse_op_loop pp f code len (input ++ ex) acc = .ok (tail ++ ex) op := by
  intro f
  induction f with
  | zero => intro _ len input acc tail op ex h; cases h
  | succ f ih =>
    intro code len input acc tail op ex h
    unfold parse_op_loop at h ⊢
    split at h
    next hcond =>
      rw [if_pos hcond]
      cases h
      rfl
    next hcond =>
      rw [if_neg hcond]
      split at h
      next mid pk heq =>
        simp only [Hext _ _ _ ex heq]
        have hlen : (input ++ ex).length - (mid ++ ex).length = input.length - mid.length := by
          simp only [List.length_append]
          omega
        rw [hlen]
        exact ih ex h
      · cases h
      · cases h

theorem parse_operator_packet_p_append {pp : Bits → PResult Packet}
    (Hext : ∀ i t v (ex : Bits), pp i = .ok t v → pp (i ++ ex) = .ok (t ++ ex) v)
    {f : Nat} {input tail : Bits} {op : Operator} (ex : Bits)
    (h : parse_operator_packet_p pp f input = .ok tail op) :
    parse_operator_packet_p pp f (input ++ ex) = .ok (tail ++ ex) op := by
  unfold parse_operator_packet_p at h ⊢
  split at h
  next i1 code heq1 =>
    simp only [parse_opcode_append ex heq1]
    split at h
    next i2 len heq2 =>
      simp only [parse_operator_length_append ex heq2]
      exact parse_op_loop_append Hext ex h
    · cases h
    · cases h
  · cases h
  · cases h

theorem parse_packet_f_append :
    ∀ {f : Nat} {input tail : Bits} {p : Packet} (ex : Bits),
      parse_packet_f f input = .ok tail p →
      parse_packet_f f (input ++ ex) = .ok (tail ++ ex) p := by
  intro f
  induction f with
  | zero => intro input tail p ex h; cases h
  | succ f ih =>
    intro input tail p ex h
    unfold parse_packet_f at h ⊢
    split at h
    next i1 version heq =>
      simp only [take_bits_append ex heq]
      split at h
      next v heqlit =>
        cases h
        simp only [parse_literal_packet_f_append ex heqlit]
      · cases h
      next e1 heqlit =>
        split at h
        next op heqop =>
          cases h
          have hi1 : 3 ≤ i1.length := by
            have := parse_operator_packet_p_len
              (fun i t v hh => parse_packet_f_len hh) heqop
            omega
          simp only [parse_literal_packet_f_err_append ex hi1 heqlit]
          simp only [parse_operator_packet_p_append (fun i t v exx hh => ih exx hh) ex heqop]
        · cases h
        · cases h
    · cases h
    · cases h

/-! ### The `Bits(n)` budget invariant -/

theorem opl_empty_bits (b : Nat) : (OperatorLength.Bits b).empty = true ↔ b = 0 := by
  cases b <;> simp [OperatorLength.empty]

theorem opl_empty_packets (b : Nat) : (OperatorLength.Packets b).empty = true ↔ b = 0 := by
  cases b <;> simp [OperatorLength.empty]

theorem wsub64_lt (a b : Nat) : wsub64 a b < U64 := by
  unfold wsub64 U64
  omega

/-- Invariant of the sub-packet loop under `Bits` framing: on success the
bits consumed by the loop are congruent to the starting budget modulo
`2^64` (with wrapping subtraction this is all that survives; for realistic
input sizes it pins the consumption exactly, see `C1`). -/
theorem parse_op_loop_bits_budget {pp : Bits → PResult Packet}
    (Hc : ∀ i t v, pp i = .ok t v → t.length < i.length) :
    ∀ {f : Nat} {code : Opcode} {b : Nat} {input : Bits} {acc : List Packet}
      {tail : Bits} {op : Operator},
      parse_op_loop pp f code (.Bits b) input acc = .ok tail op → b < U64 →
      tail.length ≤ input.length ∧ (input.length - tail.length) % U64 = b := by
  intro f
  induction f with
  | zero => intro _ b input acc tail op h _; cases h
  | succ f ih =>
    intro code b input acc tail op h hb
    unfold parse_op_loop at h
    split at h
    next hcond =>
      cases h
      have hb0 : b = 0 := (opl_empty_bits b).mp hcond
      subst hb0
      simp
    next hcond =>
      split at h
      next mid pk heq =>
        have hmid := Hc _ _ _ heq
        have := ih h (wsub64_lt b (input.length - mid.length))
        obtain ⟨h1, h2⟩ := this
        refine ⟨by omega, ?_⟩
        rw [show input.length - tail.length
            = (input.length - mid.length) + (mid.length - tail.length) by omega]
        simp only [wsub64, U64] at h2 hb ⊢
        omega
      · cases h
      · cases h

/-! ### Wrapper-level lemmas -/

theorem parse_packet_ok_append {input tail : Bits} {p : Packet} (ex : Bits)
    (h : parse_packet input = .ok tail p) :
    parse_packet (input ++ ex) = .ok (tail ++ ex) p := by
  unfold parse_packet at h ⊢
  exact parse_packet_f_mono (by simp) (parse_packet_f_append ex h)

theorem parse_trailing_zeroes_all :
    ∀ {t : Bits}, (∀ b ∈ t, b = false) → t ≠ [] → parse_trailing_zeroes t = .ok [] () := by
  intro t
  induction t with
  | nil => intro _ hne; exact absurd rfl hne
  | cons b rest ih =>
    intro hz _
    have hb : b = false := hz b (by simp)
    subst hb
    unfold parse_trailing_zeroes
    cases hrest : rest with
    | nil => rw [if_pos rfl]
    | cons c rest2 =>
      rw [if_neg (by simp)]
      rw [← hrest]
      exact ih (fun x hx => hz x (by simp [hx])) (by simp [hrest])

theorem parse_trailing_zeroes_ok {t : Bits} {a : Bits} {u : Unit}
    (h : parse_trailing_zeroes t = .ok a u) : (∀ b ∈ t, b = false) ∧ t ≠ [] := by
  induction t with
  | nil => cases h
  | cons b rest ih =>
    match b with
    | true => cases h
    | false =>
      unfold parse_trailing_zeroes at h
      refine ⟨?_, by simp⟩
      split at h
      next hrest =>
        subst hrest
        simp
      next hrest =>
        intro x hx
        rcases List.mem_cons.mp hx with hx | hx
        · exact hx
        · exact (ih h).1 x hx

theorem parse_trailing_zeroes_append_true :
    ∀ {t : Bits}, (∀ b ∈ t, b = false) → ∀ (s : Bits),
      parse_trailing_zeroes (t ++ true :: s) = .err (.base (true :: s) .tagBits) := by
  intro t
  induction t with
  | nil => intro _ s; rfl
  | cons b rest ih =>
    intro hz s
    have hb : b = false := hz b (by simp)
    subst hb
    rw [List.cons_append]
    unfold parse_trailing_zeroes
    rw [if_neg (by simp)]
    exact ih (fun x hx => hz x (by simp [hx])) s

theorem final_top_ok {input : Bits} {p : Packet}
    (h : final_parse_top_packet input = .ok p) :
    ∃ tail, parse_packet input = .ok tail p ∧ (∀ b ∈ tail, b = false) ∧ tail ≠ [] := by
  unfold final_parse_top_packet at h
  split at h
  next tail q heq =>
    split at h
    next a u heqt =>
      cases h
      exact ⟨tail, heq, parse_trailing_zeroes_ok heqt⟩
    · cases h
    · cases h
  · cases h
  · cases h

/-! ### Evaluator lemmas -/

theorem streaming_windows2_all_iff {α : Type} (R : α → α → Prop) [DecidableRel R] :
    ∀ l : List α,
      (((streaming_windows2 l).all fun p => decide (R p.1 p.2)) = true ↔ List.Chain' R l) := by
  intro l
  induction l with
  | nil => simp [streaming_windows2]
  | cons a t ih =>
    cases t with
    | nil => simp [streaming_windows2]
    | cons b rest =>
      unfold streaming_windows2
      rw [List.all_cons, List.chain'_cons]
      simp only [Bool.and_eq_true, decide_eq_true_eq]
      exact and_congr Iff.rfl ih

theorem versionSumList_eq (l : List Packet) :
    versionSumList l = (l.map Packet.version_sum).sum := by
  induction l with
  | nil => rfl
  | cons p rest ih => simp [versionSumList, ih]

theorem packetValues_eq (l : List Packet) : packetValues l = l.map Packet.value := by
  induction l with
  | nil => rfl
  | cons p rest ih => simp [packetValues, ih]

/-! ### Helper lemmas for concrete bit layouts -/

theorem take_bits_exact {n : Nat} (pre L : Bits) (hn : pre.length = n) :
    take_bits n (pre ++ L) = .ok L (bitsToNat pre) := by
  subst hn
  unfold take_bits
  rw [if_pos (by simp)]
  rw [List.take_left, List.drop_left]

theorem bitsToNat_replicate_false (n : Nat) :
    bitsToNat (List.replicate n false) = 0 := by
  induction n with
  | zero => rfl
  | succ n ih =>
    simp only [List.replicate_succ, bitsToNat, List.foldl_cons] at ih ⊢
    simpa using ih

theorem nibble_val {g : Nat} (h : g < 16) : bitsToNat (nibbleBits g) = g := by
  have : ∀ g' < 16, bitsToNat (nibbleBits g') = g' := by decide
  exact this g h

/-! ### Hex-digit lemmas -/

theorem hexDigitVal_facts {c : Char} {v : Nat} (h : hexDigitVal c = some v) :
    ((48 ≤ c.toNat ∧ c.toNat ≤ 57) ∨ (97 ≤ c.toNat ∧ c.toNat ≤ 102)
      ∨ (65 ≤ c.toNat ∧ c.toNat ≤ 70)) ∧ v ≤ 15 := by
  unfold hexDigitVal at h
  split_ifs at h with h1 h2 h3 <;> cases h
  · exact ⟨Or.inl h1, by omega⟩
  · exact ⟨Or.inr (Or.inl h2), by omega⟩
  · exact ⟨Or.inr (Or.inr h3), by omega⟩

theorem hexDigitVal_ne_plus {c : Char} {v : Nat} (h : hexDigitVal c = some v) : c ≠ '+' := by
  intro hc
  subst hc
  have := (hexDigitVal_facts h).1
  exact absurd this (by decide)

theorem hexDigitVal_not_ws {c : Char} {v : Nat} (h : hexDigitVal c = some v) :
    isWs c = false := by
  have hf := (hexDigitVal_facts h).1
  unfold isWs
  simp only [decide_eq_false_iff_not]
  rintro (rfl | rfl | rfl | rfl) <;> exact absurd hf (by decide)

theorem fsr_single {c : Char} {v : Nat} (h : hexDigitVal c = some v) :
    from_str_radix16_u8 [c] = some v := by
  simp only [from_str_radix16_u8]
  rw [if_neg (hexDigitVal_ne_plus h)]
  simpa [hexDigitsVal] using h

theorem fsr_double {a b : Char} {va vb : Nat}
    (ha : hexDigitVal a = some va) (hb : hexDigitVal b = some vb) :
    from_str_radix16_u8 [a, b] = some (va * 16 + vb) := by
  have hva := (hexDigitVal_facts ha).2
  have hvb := (hexDigitVal_facts hb).2
  simp only [from_str_radix16_u8]
  rw [if_neg (hexDigitVal_ne_plus ha)]
  unfold hexDigitsVal
  rw [ha]
  simp only [hexDigitsVal, hb, List.length_cons, List.length_nil]
  rw [if_pos (by omega)]
  norm_num

theorem dropWhile_eq_self {p : Char → Bool} :
    ∀ {l : List Char}, (∀ c ∈ l, p c = false) → l.dropWhile p = l := by
  intro l h
  cases l with
  | nil => rfl
  | cons a t =>
    rw [List.dropWhile_cons, if_neg]
    simp [h a (by simp)]

theorem trim_eq_self {l : List Char} (h : ∀ c ∈ l, isWs c = false) : trim l = l := by
  unfold trim
  rw [dropWhile_eq_self h, dropWhile_eq_self (fun c hc => h c (List.mem_reverse.mp hc)),
    List.reverse_reverse]

/-- The hex loop on well-formed groups: every two-character group yields
`16 * hi + lo` and a final single digit yields `digit * 16 % 256`. -/
theorem parse_hex_loop_pairs :
    ∀ (pairs : List (Char × Char)) (lastc : Char) (vl : Nat),
      (∀ p ∈ pairs, (hexDigitVal p.1).isSome ∧ (hexDigitVal p.2).isSome) →
      hexDigitVal lastc = some vl →
      parse_hex_loop (pairs.flatMap (fun p => [p.1, p.2]) ++ [lastc])
        = .ok (pairs.map
            (fun p => (hexDigitVal p.1).getD 0 * 16 + (hexDigitVal p.2).getD 0)
            ++ [vl * 16 % 256])
  | [], lastc, vl, _, hl => by
    simp only [List.flatMap_nil, List.nil_append, List.map_nil]
    unfold parse_hex_loop parse_hex_byte
    simp only [fsr_single hl]
  | (a, b) :: rest, lastc, vl, hps, hl => by
    have ha : (hexDigitVal a).isSome := (hps (a, b) (by simp)).1
    have hb : (hexDigitVal b).isSome := (hps (a, b) (by simp)).2
    obtain ⟨va, hva⟩ := Option.isSome_iff_exists.mp ha
    obtain ⟨vb, hvb⟩ := Option.isSome_iff_exists.mp hb
    have ih := parse_hex_loop_pairs rest lastc vl (fun p hp => hps p (by simp [hp])) hl
    have hne : rest.flatMap (fun p => [p.1, p.2]) ++ [lastc] ≠ [] := by simp
    simp only [List.flatMap_cons, List.map_cons, List.cons_append, List.append_assoc,
      List.nil_append]
    unfold parse_hex_loop parse_hex_byte
    simp only [fsr_double hva hvb, if_neg hne, ih, List.map_cons, hva, hvb, Option.getD_some]

/-! ### Claim theorems -/

/-- C2: for every operator packet whose opcode is GreaterThan, LessThan or
EqualTo and that has exactly two operands, `Operator::value` returns 1 when
the comparison of the two operand values (in order) holds, and 0
otherwise. -/
theorem C2_comparison_two_operands (pa pb : Packet) :
    Operator.value (.mk .greater [pa, pb]) = (if pa.value > pb.value then 1 else 0)
    ∧ Operator.value (.mk .less [pa, pb]) = (if pa.value < pb.value then 1 else 0)
    ∧ Operator.value (.mk .eq [pa, pb]) = (if pa.value = pb.value then 1 else 0) := by
  refine ⟨?_, ?_, ?_⟩ <;>
    simp [Operator.value, packetValues, streaming_windows2]

/-- C8: `version_sum` is the packet's own version plus the version sums of
its children; a literal packet has no children and contributes exactly its
version. -/
theorem C8_version_sum_additive (p : Packet) (v x : Nat) :
    p.version_sum = p.version + (p.children.map Packet.version_sum).sum
    ∧ (Packet.mk v (.literal x)).version_sum = v := by
  constructor
  · match p with
    | .mk w (.literal y) =>
      simp [Packet.version_sum, PacketData.version_sum, Packet.children, Packet.version]
    | .mk w (.operator (.mk c ops)) =>
      simp [Packet.version_sum, PacketData.version_sum, Operator.version_sum,
        Packet.children, Packet.version, versionSumList_eq]
  · simp [Packet.version_sum, PacketData.version_sum]

/-- C9: for a comparison operator packet with any number of operands, the
evaluator returns 1 exactly when every adjacent pair of operand values
satisfies the comparison (`List.Chain'`), else 0; with zero or one operand
it returns 1, and (being a total function) it never fails. -/
theorem C9_comparison_pairwise (ops : List Packet) (q : Packet) :
    (Operator.value (.mk .greater ops)
      = if List.Chain' (· > ·) (packetValues ops) then 1 else 0)
    ∧ (Operator.value (.mk .less ops)
      = if List.Chain' (· < ·) (packetValues ops) then 1 else 0)
    ∧ (Operator.value (.mk .eq ops)
      = if List.Chain' (· = ·) (packetValues ops) then 1 else 0)
    ∧ Operator.value (.mk .greater []) = 1
    ∧ Operator.value (.mk .less []) = 1
    ∧ Operator.value (.mk .eq []) = 1
    ∧ Operator.value (.mk .greater [q]) = 1
    ∧ Operator.value (.mk .less [q]) = 1
    ∧ Operator.value (.mk .eq [q]) = 1 := by
  refine ⟨?_, ?_, ?_, rfl, rfl, rfl, rfl, rfl, rfl⟩
  · by_cases h : List.Chain' (· > ·) (packetValues ops)
    · simp [Operator.value, (streaming_windows2_all_iff _ _).mpr h, h]
    · have hall := mt (streaming_windows2_all_iff (· > ·) (packetValues ops)).mp h
      simp [Operator.value, h, Bool.eq_false_iff.mpr hall]
  · by_cases h : List.Chain' (· < ·) (packetValues ops)
    · simp [Operator.value, (streaming_windows2_all_iff _ _).mpr h, h]
    · have hall := mt (streaming_windows2_all_iff (· < ·) (packetValues ops)).mp h
      simp [Operator.value, h, Bool.eq_false_iff.mpr hall]
  · by_cases h : List.Chain' (· = ·) (packetValues ops)
    · simp [Operator.value, (streaming_windows2_all_iff _ _).mpr h, h]
    · have hall := mt (streaming_windows2_all_iff (· = ·) (packetValues ops)).mp h
      simp [Operator.value, h, Bool.eq_false_iff.mpr hall]

theorem parse_op_loop_empty (pp : Bits → PResult Packet) (f : Nat) (code : Opcode)
    (len : OperatorLength) (input : Bits) (acc : List Packet) (hlen : len.empty = true) :
    parse_op_loop pp (f + 1) code len input acc = .ok input (.mk code acc) := by
  unfold parse_op_loop
  rw [if_pos hlen]

theorem parse_operator_length_bits0 (rest : Bits) :
    parse_operator_length ([false] ++ (List.replicate 15 false ++ rest)) = .ok rest (.Bits 0) := by
  unfold parse_operator_length take_bit
  simp only [take_bits_exact (n := 1) [false] (List.replicate 15 false ++ rest) rfl,
    show bitsToNat [false] = 0 from rfl]
  norm_num
  simp only [take_bits_exact (n := 15) (List.replicate 15 false) rest (by simp),
    bitsToNat_replicate_false]

theorem parse_operator_length_packets0 (rest : Bits) :
    parse_operator_length ([true] ++ (List.replicate 11 false ++ rest)) = .ok rest (.Packets 0) := by
  unfold parse_operator_length take_bit
  simp only [take_bits_exact (n := 1) [true] (List.replicate 11 false ++ rest) rfl,
    show bitsToNat [true] = 1 from rfl]
  norm_num
  simp only [take_bits_exact (n := 11) (List.replicate 11 false) rest (by simp),
    bitsToNat_replicate_false]

/-- C10: an operator packet declaring `Bits(0)` or `Packets(0)` parses
successfully into an operator with no operands; `Min`/`Max` of zero
operands evaluate to 0 (via `unwrap_or(0)`); evaluation is a total Lean
function on packet trees, so it cannot fail. -/
theorem C10_empty_operator (b1 b2 b3 : Bool) (c : Opcode) (rest : Bits)
    (h : decode_opcode (bitsToNat [b1, b2, b3]) = some c) :
    parse_operator_packet ([b1, b2, b3] ++ ([false] ++ (List.replicate 15 false ++ rest)))
      = .ok rest (.mk c [])
    ∧ parse_operator_packet ([b1, b2, b3] ++ ([true] ++ (List.replicate 11 false ++ rest)))
      = .ok rest (.mk c [])
    ∧ Operator.value (.mk .min []) = 0
    ∧ Operator.value (.mk .max []) = 0 := by
  refine ⟨?_, ?_, rfl, rfl⟩
  · unfold parse_operator_packet parse_operator_packet_p parse_opcode
    simp only [take_bits_exact (n := 3) [b1, b2, b3]
        ([false] ++ (List.replicate 15 false ++ rest)) rfl,
      h, parse_operator_length_bits0]
    exact parse_op_loop_empty _ _ _ _ _ _ rfl
  · unfold parse_operator_packet parse_operator_packet_p parse_opcode
    simp only [take_bits_exact (n := 3) [b1, b2, b3]
        ([true] ++ (List.replicate 11 false ++ rest)) rfl,
      h, parse_operator_length_packets0]
    exact parse_op_loop_empty _ _ _ _ _ _ rfl

/-- C10 witness: a concrete Sum operator with `Bits(0)` and with
`Packets(0)` framing, and two trailing junk bits left untouched. -/
theorem C10_empty_operator_witness :
    decode_opcode (bitsToNat [false, false, false]) = some .sum
    ∧ parse_operator_packet ([false, false, false] ++ ([false]
        ++ (List.replicate 15 false ++ [true, true])))
      = .ok [true, true] (.mk .sum []) := by
  refine ⟨rfl, ?_⟩
  exact (C10_empty_operator false false false .sum [true, true] rfl).1

theorem take_bits_cons1 (b : Bool) (l : Bits) :
    take_bits 1 (b :: l) = .ok l (bitsToNat [b]) := by
  unfold take_bits
  rw [if_pos (by simp)]
  rfl

theorem parse_chunk_bits {g : Nat} (m : Bool) (L : Bits) (hg : g < 16) :
    parse_chunk ((m :: nibbleBits g) ++ L) = .ok L (m, g) := by
  unfold parse_chunk take_bit
  simp only [List.cons_append, take_bits_cons1]
  cases m <;>
    simp [take_bits_exact (n := 4) (nibbleBits g) L rfl, nibble_val hg,
      show bitsToNat [true] = 1 from rfl, show bitsToNat [false] = 0 from rfl]

theorem parse_chunks_f_step_more {f : Nat} {inp L : Bits} {acc g : Nat}
    (hc : parse_chunk inp = .ok L (true, g)) :
    parse_chunks_f (f + 1) inp acc = parse_chunks_f f L ((acc * 16 + g) % U64) := by
  conv_lhs => rw [parse_chunks_f]
  simp [hc]

theorem parse_chunks_f_step_done {f : Nat} {inp L : Bits} {acc g : Nat}
    (hc : parse_chunk inp = .ok L (false, g)) :
    parse_chunks_f (f + 1) inp acc = .ok L ((acc * 16 + g) % U64) := by
  conv_lhs => rw [parse_chunks_f]
  simp [hc]

/-- C6: a literal packet encoded as the chunk sequence
`[(1,g1), (1,g2), (0,g3)]` decodes to `(g1*16 + g2)*16 + g3`,
accumulating each 4-bit group big-endian and stopping at the first chunk
with a clear continuation bit (the suffix `s` is left unconsumed). -/
theorem C6_literal_groups (g1 g2 g3 : Nat) (s : Bits)
    (h1 : g1 < 16) (h2 : g2 < 16) (h3 : g3 < 16) :
    parse_literal_packet ([true, false, false]
        ++ ((true :: nibbleBits g1)
          ++ ((true :: nibbleBits g2) ++ ((false :: nibbleBits g3) ++ s))))
      = .ok s ((g1 * 16 + g2) * 16 + g3) := by
  have c1 := parse_chunk_bits (g := g1) true
    ((true :: nibbleBits g2) ++ ((false :: nibbleBits g3) ++ s)) h1
  have c2 := parse_chunk_bits (g := g2) true ((false :: nibbleBits g3) ++ s) h2
  have c3 := parse_chunk_bits (g := g3) false s h3
  have key : parse_chunks_f 3
      ((true :: nibbleBits g1)
        ++ ((true :: nibbleBits g2) ++ ((false :: nibbleBits g3) ++ s))) 0
      = .ok s ((g1 * 16 + g2) * 16 + g3) := by
    rw [show (3 : Nat) = 2 + 1 from rfl, parse_chunks_f_step_more c1]
    rw [show (2 : Nat) = 1 + 1 from rfl, parse_chunks_f_step_more c2]
    rw [show (1 : Nat) = 0 + 1 from rfl, parse_chunks_f_step_done c3]
    congr 1
    simp only [U64]
    omega
  unfold parse_literal_packet parse_literal_packet_f tag_bits
  simp only [take_bits_exact (n := 3) [true, false, false]
      ((true :: nibbleBits g1)
        ++ ((true :: nibbleBits g2) ++ ((false :: nibbleBits g3) ++ s))) rfl,
    show bitsToNat [true, false, false] = 4 from rfl, if_pos rfl]
  exact parse_chunks_f_mono (by simp) key

/-- C6 witness: groups 1, 2, 3 with a one-bit suffix decode to
`(1*16 + 2)*16 + 3 = 291`. -/
theorem C6_literal_groups_witness :
    parse_literal_packet ([true, false, false]
        ++ ((true :: nibbleBits 1)
          ++ ((true :: nibbleBits 2) ++ ((false :: nibbleBits 3) ++ [true]))))
      = .ok [true] 291 := by
  have := C6_literal_groups 1 2 3 [true] (by decide) (by decide) (by decide)
  simpa using this

/-- C1 counterexample: `c1OverrunBits` declares a `Bits(1)` budget and its
first sub-packet parse consumes 11 bits — more than the remaining budget —
yet `parse_operator_packet` does not fail at that point with any
budget error: the unchecked `usize` subtraction wraps, the loop parses the
entire second 11-bit sub-packet as well, and the parse only fails at the
very end of input (`.base [] .eof`), 22 sub-packet bits past the declared
budget of 1. -/
theorem C1_counterexample :
    parse_operator_length (List.drop 3 c1OverrunBits)
      = .ok (List.drop 19 c1OverrunBits) (.Bits 1)
    ∧ parse_packet (List.drop 19 c1OverrunBits)
      = .ok (List.drop 30 c1OverrunBits) (.mk 0 (.literal 0))
    ∧ (List.drop 19 c1OverrunBits).length - (List.drop 30 c1OverrunBits).length = 11
    ∧ parse_operator_packet c1OverrunBits = .fail (.base [] .eof) :=
  ⟨rfl, rfl, rfl, rfl⟩

/-- C1 (amended): when an operator packet under `BitLength(n)` framing
parses successfully (and the input, like every Rust slice, is shorter than
`2^64` bits), the sub-packets consumed exactly `n` bits. The failure half
of the original claim does not hold: there is no `BitBudgetExceeded`
check — on overrun the `usize` budget underflows (wrapping in release
builds, a panic in debug builds) and parsing continues, failing only later
from input exhaustion (see the counterexample). -/
theorem C1_bit_budget_exact {input i1 i2 tail : Bits} {code : Opcode} {n : Nat} {op : Operator}
    (hop : parse_opcode input = .ok i1 code)
    (hlen : parse_operator_length i1 = .ok i2 (.Bits n))
    (hok : parse_operator_packet input = .ok tail op)
    (hsz : input.length < U64) :
    i2.length - tail.length = n ∧ tail.length ≤ i2.length := by
  unfold parse_operator_packet parse_operator_packet_p at hok
  simp only [hop, hlen] at hok
  have Hc : ∀ i t v, parse_packet_f (input.length + 1) i = .ok t v → t.length < i.length :=
    fun i t v hh => parse_packet_f_len hh
  have hn : n < 2 ^ 15 := (parse_operator_length_ok_bits hlen).2.2
  have hb : n < U64 := by
    have h15 : (2 : Nat) ^ 15 = 32768 := by norm_num
    simp only [U64]
    omega
  obtain ⟨h1, h2⟩ := parse_op_loop_bits_budget Hc hok hb
  refine ⟨?_, h1⟩
  have hi1 : i1 = input.drop 3 := (parse_opcode_ok hop).2.1
  have hi2 : i2 = i1.drop 16 := (parse_operator_length_ok_bits hlen).2.1
  have hle : i2.length ≤ input.length := by
    subst hi1 hi2
    simp
  rw [Nat.mod_eq_of_lt (by omega)] at h2
  exact h2

/-- C1 witness: a `Bits(11)` operator whose single 11-bit literal
sub-packet consumes the budget exactly. -/
theorem C1_bit_budget_exact_witness :
    parse_operator_length (List.drop 3 c1ExactBits)
      = .ok (List.drop 19 c1ExactBits) (.Bits 11)
    ∧ (List.drop 19 c1ExactBits).length - (List.length ([] : Bits)) = 11 :=
  ⟨rfl,
    (@C1_bit_budget_exact c1ExactBits (List.drop 3 c1ExactBits) (List.drop 19 c1ExactBits)
      [] .sum 11 (.mk .sum [.mk 0 (.literal 0)]) rfl rfl rfl (by decide)).1⟩

/-- C4: if a bit stream parses as a top-level packet then appending up to
7 zero bits leaves the parse (hence version-sum and value) unchanged,
while appending a single 1-bit after the packet makes the top-level parse
fail (non-zero trailing data). -/
theorem C4_trailing_padding (inp : Bits) (p : Packet) (k : Nat)
    (h : final_parse_top_packet inp = .ok p) (hk : k ≤ 7) :
    final_parse_top_packet (inp ++ List.replicate k false) = .ok p
    ∧ ∃ e, final_parse_top_packet (inp ++ [true]) = .error e := by
  obtain ⟨tail, hpk, hz, hne⟩ := final_top_ok h
  constructor
  · have h1 := parse_packet_ok_append (List.replicate k false) hpk
    unfold final_parse_top_packet
    simp only [h1]
    have hz2 : ∀ b ∈ tail ++ List.replicate k false, b = false := by
      intro b hb
      rcases List.mem_append.mp hb with hb | hb
      · exact hz b hb
      · exact List.eq_of_mem_replicate hb
    have hne2 : tail ++ List.replicate k false ≠ [] := by
      intro hcontra
      exact hne (List.append_eq_nil.mp hcontra).1
    simp only [parse_trailing_zeroes_all hz2 hne2]
  · have h2 := parse_packet_ok_append [true] hpk
    unfold final_parse_top_packet
    simp only [h2]
    simp only [parse_trailing_zeroes_append_true hz ([] : Bits)]
    exact ⟨_, rfl⟩

/-- C4 witness: an 11-bit literal packet with one bit of zero padding,
padded with three further zero bits and then spoiled with a 1-bit. -/
theorem C4_trailing_padding_witness :
    final_parse_top_packet (litPacketBits ++ [false]) = .ok (.mk 0 (.literal 0))
    ∧ (3 : Nat) ≤ 7
    ∧ final_parse_top_packet ((litPacketBits ++ [false]) ++ List.replicate 3 false)
        = .ok (.mk 0 (.literal 0))
    ∧ ∃ e, final_parse_top_packet ((litPacketBits ++ [false]) ++ [true]) = .error e :=
  ⟨rfl, by decide,
    (C4_trailing_padding (litPacketBits ++ [false]) (.mk 0 (.literal 0)) 3 rfl (by decide)).1,
    (C4_trailing_padding (litPacketBits ++ [false]) (.mk 0 (.literal 0)) 3 rfl (by decide)).2⟩

/-- C7: for odd-length hex input (trimming is the identity on it, since
hex digits are not whitespace), each two-character group becomes one byte
with the first digit in the high nibble, and the final single digit
becomes a byte with that digit in the high nibble and a zero low nibble. -/
theorem C7_odd_length_hex (pairs : List (Char × Char)) (lastc : Char) (vl : Nat)
    (hps : ∀ p ∈ pairs, (hexDigitVal p.1).isSome ∧ (hexDigitVal p.2).isSome)
    (hl : hexDigitVal lastc = some vl) :
    parse_hex (pairs.flatMap (fun p => [p.1, p.2]) ++ [lastc])
      = .ok (pairs.map (fun p => (hexDigitVal p.1).getD 0 * 16 + (hexDigitVal p.2).getD 0)
          ++ [vl * 16]) := by
  have hnws : ∀ c ∈ pairs.flatMap (fun p => [p.1, p.2]) ++ [lastc], isWs c = false := by
    intro c hc
    rcases List.mem_append.mp hc with hc | hc
    · obtain ⟨p, hp, hcp⟩ := List.mem_flatMap.mp hc
      obtain ⟨v1, hv1⟩ := Option.isSome_iff_exists.mp (hps p hp).1
      obtain ⟨v2, hv2⟩ := Option.isSome_iff_exists.mp (hps p hp).2
      rcases List.mem_cons.mp hcp with rfl | hcp
      · exact hexDigitVal_not_ws hv1
      · rcases List.mem_cons.mp hcp with rfl | hcp
        · exact hexDigitVal_not_ws hv2
        · cases hcp
    · rcases List.mem_singleton.mp hc with rfl
      exact hexDigitVal_not_ws hl
  unfold parse_hex
  rw [trim_eq_self hnws]
  rw [parse_hex_loop_pairs pairs lastc vl hps hl]
  have hv : vl ≤ 15 := (hexDigitVal_facts hl).2
  have hm : vl * 16 % 256 = vl * 16 := Nat.mod_eq_of_lt (by omega)
  rw [hm]

/-- C7 witness: `"ab5"` decodes to `[0xAB, 0x50]`. -/
theorem C7_odd_length_hex_witness :
    (∀ p ∈ [('a', 'b')], (hexDigitVal p.1).isSome ∧ (hexDigitVal p.2).isSome)
    ∧ hexDigitVal '5' = some 5
    ∧ parse_hex ['a', 'b', '5'] = .ok [171, 80] :=
  ⟨by decide, by decide, C7_odd_length_hex [('a', 'b')] '5' 5 (by decide) (by decide)⟩

/-- C5 counterexample: the fixture `"C200B40A82"` does NOT return 3. Its
top-level packet (Sum of literals 1 and 2) consumes all 40 bits of the
buffer, leaving no input for `parse_trailing_zeroes` — which, being a
`collect_separated_terminated` parser, must parse at least one zero bit
before its `eof` terminator — so the whole parse errors at end of input. -/
theorem C5_counterexample :
    part2 "C200B40A82".toList = .error (.BitError (.base [] .eof)) :=
  rfl

/-- C5 (amended): nine of the ten published fixtures return the listed
answer; the tenth, `"C200B40A82"`, fails with a bit-parse error at end of
input because its packet is exactly 40 bits long and the trailing-zeroes
parser requires at least one zero bit of padding. -/
theorem C5_fixtures_amended :
    part1 "8A004A801A8002F478".toList = .ok 16
    ∧ part1 "620080001611562C8802118E34".toList = .ok 12
    ∧ part1 "C0015000016115A2E0802F182340".toList = .ok 23
    ∧ part1 "A0016C880162017C3686B18A3D4780".toList = .ok 31
    ∧ part2 "C200B40A82".toList = .error (.BitError (.base [] .eof))
    ∧ part2 "04005AC33890".toList = .ok 54
    ∧ part2 "880086C3E88112".toList = .ok 7
    ∧ part2 "CE00C43D881120".toList = .ok 9
    ∧ part2 "D8005AC2A8F0".toList = .ok 1
    ∧ part2 "9C0141080250320F1802104A08".toList = .ok 1 :=
  ⟨rfl, rfl, rfl, rfl, rfl, rfl, rfl, rfl, rfl, rfl⟩

end Day16
